import Mathlib

/-!
# Verification of the music-visualizer spectral-to-visual pipeline

Shallow embedding of `src/main.py` (class `MusicVisualizer`): the
spectrogram banding step `get_frequency_bands`, the per-frame renderer
`draw_frame`, and the audio/video mux tail of `create_animation`.

Magnitudes are modelled as rationals (the float arithmetic of the source
is exact on the operations involved: sums, divisions, comparisons are
modelled algebraically); the only real-valued quantity is the vertical
oscillation term `np.sin(frame_index * 0.1)`, modelled with `Real.sin`.
-/

namespace MusicViz

/-- Model of `np.mean`: the arithmetic mean of a list of magnitudes
(`np.mean(band)` in `get_frequency_bands`). -/
def mean (l : List ℚ) : ℚ := l.sum / l.length

/-- The section sizes produced by `np.array_split(ary, k)` on an array of
length `n`: `n % k` sub-arrays of size `n / k + 1` followed by the rest of
size `n / k` (numpy's documented balanced split, larger sections first). -/
def splitSizes (n k : ℕ) : List ℕ :=
  List.replicate (n % k) (n / k + 1) ++ List.replicate (k - n % k) (n / k)

/-- Cut a list into consecutive chunks of the given sizes. -/
def chunksBySizes : List ℕ → List ℚ → List (List ℚ)
  | [], _ => []
  | s :: ss, xs => xs.take s :: chunksBySizes ss (xs.drop s)

/-- Model of `np.array_split(xs, k)`: split `xs` into `k` contiguous
sections whose sizes differ by at most one, larger sections first. -/
def array_split (xs : List ℚ) (k : ℕ) : List (List ℚ) :=
  chunksBySizes (splitSizes xs.length k) xs

/-- The banding step of `get_frequency_bands` once the column is in hand:
`bands = np.array_split(magnitudes, 10)` followed by
`np.array([np.mean(band) for band in bands])`. -/
def bandMeans (magnitudes : List ℚ) : List ℚ :=
  (array_split magnitudes 10).map mean

/-- The magnitude spectrogram `self.stft = np.abs(librosa.stft(self.y))`,
stored column-wise: `cols[t]` is the column `self.stft[:, t]` of per-bin
magnitudes at time-frame `t`. All magnitudes are non-negative (they are
absolute values), and every column has the same number of frequency bins. -/
structure Spectrogram where
  numBins : ℕ
  cols : List (List ℚ)
  cols_len : ∀ c ∈ cols, c.length = numBins
  nonneg : ∀ c ∈ cols, ∀ x ∈ c, 0 ≤ x

/-- The frame count `self.stft.shape[1]`: the number of time-frames. -/
def Spectrogram.frameCount (s : Spectrogram) : ℕ := s.cols.length

/-- Python column indexing `self.stft[:, i]`: a negative index selects
from the end (`i + frame_count`), and an index that is still out of range
after that adjustment raises `IndexError`, modelled as `none`. -/
def pyColumn (s : Spectrogram) (i : ℤ) : Option (List ℚ) :=
  let j : ℤ := if i < 0 then i + (s.cols.length : ℤ) else i
  if 0 ≤ j then s.cols[j.toNat]? else none

/-- Model of `MusicVisualizer.get_frequency_bands(frame_index)`:
returns `np.zeros(10)` when `frame_index >= self.stft.shape[1]`, otherwise
takes the column `self.stft[:, frame_index]` (Python indexing), splits it
into 10 bands with `np.array_split` and returns the per-band means.
`none` models the `IndexError` raised when `frame_index < -frame_count`. -/
def get_frequency_bands (s : Spectrogram) (frame_index : ℤ) : Option (List ℚ) :=
  if (s.cols.length : ℤ) ≤ frame_index then some (List.replicate 10 0)
  else (pyColumn s frame_index).map bandMeans

/-- A concrete 10-bin column used as evaluation input. -/
def exCol : List ℚ := [1, 2, 3, 4, 5, 6, 7, 8, 9, 10]

/-- A concrete spectrogram: 10 frequency bins, a single time-frame column. -/
def exSpec : Spectrogram :=
  { numBins := 10
    cols := [exCol]
    cols_len := by decide
    nonneg := by decide }

/-- Model of `np.max` on a (nonempty) one-dimensional array, as applied
to the 10-element `bands` array in `draw_frame`. The empty case is junk
(never reached: `bands` always has 10 entries). -/
def npMax (l : List ℚ) : ℚ :=
  match l with
  | [] => 0
  | x :: xs => xs.foldl max x

/-- The normalization step of `draw_frame`:
`max_magnitude = np.max(bands); if max_magnitude > 0: bands = bands / max_magnitude`. -/
def normalizeBands (bands : List ℚ) : List ℚ :=
  if 0 < npMax bands then bands.map (fun b => b / npMax bands) else bands

/-- Python `int()` applied to an exact rational float value: truncation
toward zero. -/
def pyIntQ (q : ℚ) : ℤ := if 0 ≤ q then ⌊q⌋ else ⌈q⌉

/-- Python `int()` applied to a real value: truncation toward zero. -/
noncomputable def pyIntR (x : ℝ) : ℤ := if 0 ≤ x then ⌊x⌋ else ⌈x⌉

/-- The oscillation phase term `np.sin(frame_index * 0.1)` of `draw_frame`. -/
noncomputable def phase (frame_index : ℤ) : ℝ :=
  Real.sin ((frame_index : ℝ) * (1 / 10))

/-- One circle of a rendered frame: the parameters `draw_frame` computes
for band `i` (`xPos`, `yPos`, `radius` as computed, the three `int(...)`
color channels) together with the truncated values actually passed to
`pygame.draw.circle(self.screen, color, (int(x), int(y)), int(radius))`. -/
structure Circle where
  xPos : ℚ
  yPos : ℝ
  radius : ℚ
  colorR : ℤ
  colorG : ℤ
  colorB : ℤ
  drawnX : ℤ
  drawnY : ℤ
  drawnRadius : ℤ

/-- A rendered frame: the pixel buffer is determined by the background
fill color (`self.screen.fill(self.bg_color)`) and the circles drawn on
top of it, in increasing band order. -/
structure Frame where
  background : ℤ × ℤ × ℤ
  circles : List Circle

/-- The state of a `MusicVisualizer` instance after `__init__` and
`load_audio`: canvas size, the two color constants set in `__init__`, and
the magnitude spectrogram computed by `load_audio`. -/
structure MusicVisualizer where
  width : ℤ
  height : ℤ
  bg_color : ℤ × ℤ × ℤ
  ball_color : ℤ × ℤ × ℤ
  stft : Spectrogram

/-- State built by `MusicVisualizer(width, height)` followed by
`load_audio`: `__init__` sets `bg_color = (0, 0, 0)` and
`ball_color = (255, 255, 255)`; `load_audio` stores the spectrogram. -/
def initLoaded (width height : ℤ) (stft : Spectrogram) : MusicVisualizer :=
  { width := width
    height := height
    bg_color := (0, 0, 0)
    ball_color := (255, 255, 255)
    stft := stft }

/-- The visualizer states reachable through the constructor and
`load_audio` (the only code paths that build the state read by
`draw_frame`). -/
def Reachable (v : MusicVisualizer) : Prop :=
  ∃ width height stft, v = initLoaded width height stft

/-- Model of `MusicVisualizer.draw_frame(frame_index)`: fills the screen
with `bg_color`, obtains the band magnitudes, normalizes them by their
maximum when it is positive, and for each `i, magnitude in enumerate(bands)`
computes
`x = width * (i+1) / (len(bands)+1)`,
`y = height / 2 + magnitude * 100 * np.sin(frame_index * 0.1)`,
`radius = 20 + magnitude * 30`,
`color = (int(255*magnitude), int(100+155*magnitude), int(200*(1-magnitude)))`,
drawing each circle at `(int(x), int(y))` with radius `int(radius)`.
`none` models the `IndexError` propagated out of `get_frequency_bands`. -/
noncomputable def draw_frame (v : MusicVisualizer) (frame_index : ℤ) : Option Frame :=
  (get_frequency_bands v.stft frame_index).map (fun bands0 =>
    let bands := normalizeBands bands0
    { background := v.bg_color
      circles := (List.range bands.length).map (fun i =>
        let magnitude : ℚ := bands.getD i 0
        let x : ℚ := (v.width : ℚ) * (i + 1) / ((bands.length : ℚ) + 1)
        let y : ℝ := (v.height : ℝ) / 2 + (magnitude : ℝ) * 100 * phase frame_index
        let radius : ℚ := 20 + magnitude * 30
        { xPos := x
          yPos := y
          radius := radius
          colorR := pyIntQ (255 * magnitude)
          colorG := pyIntQ (100 + 155 * magnitude)
          colorB := pyIntQ (200 * (1 - magnitude))
          drawnX := pyIntQ x
          drawnY := pyIntR y
          drawnRadius := pyIntQ radius }) })

/-- A 10-bin column whose normalized band vector is
`[1, 1/3, 1, 1, 1, 1, 1, 1, 1, 1]`. -/
def exCol4 : List ℚ := [3, 1, 3, 3, 3, 3, 3, 3, 3, 3]

/-- A concrete spectrogram with column `exCol4`. -/
def exSpec4 : Spectrogram :=
  { numBins := 10
    cols := [exCol4]
    cols_len := by decide
    nonneg := by decide }

/-- A concrete visualizer state: `MusicVisualizer(800, 600)` after
loading `exSpec4`. -/
def exVis4 : MusicVisualizer := initLoaded 800 600 exSpec4

/-- The possible outcomes of the audio/video merge step of
`create_animation` (after `video.release()` has written the silent video
to `output_path`). `os.system(ffmpeg_cmd)` returns the tool's exit
status: a failing ffmpeg run makes it return a nonzero value, it does
not raise. A Python exception inside the `try` block is the only way to
reach the `except` branch. -/
inductive MuxOutcome where
  | toolSuccess (muxed : String)
  | toolFailure
  | exceptionDuringMerge

/-- The contents of the two file paths involved in the mux step:
`output_path` and `temp_video = output_path + '.temp.mp4'`. -/
structure MuxFiles where
  atOutput : Option String
  atTemp : Option String

/-- The mux tail of `create_animation`, starting from the state where
the silent video sits at `output_path`:
`os.rename(output_path, temp_video)`; then `os.system(ffmpeg_cmd)`
(which on success writes the muxed file to `output_path` and on failure
returns a nonzero status without raising — control continues either
way); then `os.remove(temp_video)`. The `except` branch (reached only
by a Python exception) restores `temp_video` to `output_path` when it
exists. -/
def muxStep (silentVideo : String) (outcome : MuxOutcome) : MuxFiles :=
  let afterRename : MuxFiles := { atOutput := none, atTemp := some silentVideo }
  match outcome with
  | MuxOutcome.toolSuccess muxed =>
      { atOutput := some muxed, atTemp := none }
  | MuxOutcome.toolFailure =>
      { atOutput := afterRename.atOutput, atTemp := none }
  | MuxOutcome.exceptionDuringMerge =>
      match afterRename.atTemp with
      | some x => { atOutput := some x, atTemp := none }
      | none => afterRename

theorem splitSizes_length (n k : ℕ) (hk : 0 < k) : (splitSizes n k).length = k := by
  have h : n % k ≤ k := le_of_lt (Nat.mod_lt _ hk)
  simp [splitSizes, Nat.add_sub_cancel' h]

theorem splitSizes_sum (n k : ℕ) (hk : 0 < k) : (splitSizes n k).sum = n := by
  have hle : n % k ≤ k := le_of_lt (Nat.mod_lt _ hk)
  have h1 : (k - n % k) * (n / k) = k * (n / k) - n % k * (n / k) :=
    Nat.sub_mul k (n % k) (n / k)
  have h2 : n % k * (n / k) ≤ k * (n / k) := Nat.mul_le_mul_right _ hle
  have h3 : n % k * (n / k + 1) = n % k * (n / k) + n % k := by ring
  have hdm : k * (n / k) + n % k = n := Nat.div_add_mod n k
  simp only [splitSizes, List.sum_append, List.sum_replicate, smul_eq_mul]
  omega

theorem splitSizes_get (n k : ℕ) (i : ℕ) (hi : i < (splitSizes n k).length) :
    (splitSizes n k).get ⟨i, hi⟩ = if i < n % k then n / k + 1 else n / k := by
  rw [List.get_eq_getElem]
  by_cases h : i < n % k
  · rw [if_pos h]
    have hlen : i < (List.replicate (n % k) (n / k + 1)).length := by
      simpa using h
    simp only [splitSizes]
    rw [List.getElem_append_left hlen]
    simp
  · rw [if_neg h]
    have hge : (List.replicate (n % k) (n / k + 1)).length ≤ i := by
      simpa using Nat.le_of_not_lt h
    simp only [splitSizes]
    rw [List.getElem_append_right hge]
    simp

theorem splitSizes_mem (n k : ℕ) (x : ℕ) (hx : x ∈ splitSizes n k) :
    x = n / k ∨ x = n / k + 1 := by
  rcases List.mem_append.mp hx with h | h
  · right; exact List.eq_of_mem_replicate h
  · left; exact List.eq_of_mem_replicate h

theorem chunksBySizes_length (sizes : List ℕ) (xs : List ℚ) :
    (chunksBySizes sizes xs).length = sizes.length := by
  induction sizes generalizing xs with
  | nil => rfl
  | cons s ss ih => simp [chunksBySizes, ih]

theorem chunksBySizes_join (sizes : List ℕ) (xs : List ℚ)
    (h : sizes.sum = xs.length) : (chunksBySizes sizes xs).flatten = xs := by
  induction sizes generalizing xs with
  | nil =>
    simp only [List.sum_nil] at h
    simp [chunksBySizes, (List.length_eq_zero.mp h.symm)]
  | cons s ss ih =>
    simp only [List.sum_cons] at h
    have hs : s ≤ xs.length := by omega
    have hdrop : ss.sum = (xs.drop s).length := by
      rw [List.length_drop]; omega
    simp only [chunksBySizes, List.flatten_cons, ih (xs.drop s) hdrop]
    exact List.take_append_drop s xs

theorem chunksBySizes_lengths (sizes : List ℕ) (xs : List ℚ)
    (h : sizes.sum ≤ xs.length) :
    (chunksBySizes sizes xs).map List.length = sizes := by
  induction sizes generalizing xs with
  | nil => rfl
  | cons s ss ih =>
    simp only [List.sum_cons] at h
    have hs : s ≤ xs.length := by omega
    have hdrop : ss.sum ≤ (xs.drop s).length := by
      rw [List.length_drop]; omega
    simp only [chunksBySizes, List.map_cons, List.length_take,
      Nat.min_eq_left hs, ih (xs.drop s) hdrop]

theorem mean_nonneg (l : List ℚ) (h : ∀ x ∈ l, 0 ≤ x) : 0 ≤ mean l := by
  have hs : 0 ≤ l.sum := List.sum_nonneg h
  have hl : (0 : ℚ) ≤ l.length := by positivity
  exact div_nonneg hs hl

theorem pyColumn_natCast (s : Spectrogram) (frame_index : ℕ)
    (hf : frame_index < s.cols.length) :
    pyColumn s (frame_index : ℤ) = some (s.cols.get ⟨frame_index, hf⟩) := by
  unfold pyColumn
  have h0 : ¬ ((frame_index : ℤ) < 0) := not_lt.mpr (Int.natCast_nonneg _)
  simp only [h0, if_false, if_pos (Int.natCast_nonneg frame_index), Int.toNat_natCast]
  rw [List.getElem?_eq_getElem hf]
  simp [List.get_eq_getElem]

theorem get_frequency_bands_in_range (s : Spectrogram) (frame_index : ℕ)
    (hf : frame_index < s.cols.length) :
    get_frequency_bands s (frame_index : ℤ) =
      some (bandMeans (s.cols.get ⟨frame_index, hf⟩)) := by
  unfold get_frequency_bands
  rw [if_neg (by omega), pyColumn_natCast s frame_index hf]
  rfl

theorem pyColumn_neg (s : Spectrogram) (i : ℤ)
    (h1 : -(s.cols.length : ℤ) ≤ i) (h2 : i < 0) :
    ∃ (hlt : (i + (s.cols.length : ℤ)).toNat < s.cols.length),
      pyColumn s i = some (s.cols.get ⟨(i + (s.cols.length : ℤ)).toNat, hlt⟩) := by
  have hlt : (i + (s.cols.length : ℤ)).toNat < s.cols.length := by omega
  refine ⟨hlt, ?_⟩
  simp only [pyColumn]
  rw [if_pos h2, if_pos (show (0 : ℤ) ≤ i + (s.cols.length : ℤ) by omega)]
  rw [List.getElem?_eq_getElem hlt]
  simp [List.get_eq_getElem]

/-- C1: for a frame index in `[0, frame_count)` (with the spectrogram
having at least 10 frequency bins, as every STFT magnitude spectrogram of
this program does), `get_frequency_bands` returns exactly 10 non-negative
values obtained by partitioning the frequency bins of that column into 10
contiguous groups in index order — each bin in exactly one group, group
sizes differing by at most 1, earlier groups at most 1 bin larger — each
value the arithmetic mean of its group, in frequency-ascending order. -/
theorem C1_bands_partition_means (s : Spectrogram) (frame_index : ℕ)
    (hf : frame_index < s.frameCount) (hb : 10 ≤ s.numBins) :
    ∃ (col : List ℚ) (groups : List (List ℚ)),
      pyColumn s (frame_index : ℤ) = some col ∧
      get_frequency_bands s (frame_index : ℤ) = some (groups.map mean) ∧
      (groups.map mean).length = 10 ∧
      groups.flatten = col ∧
      (∀ g ∈ groups, g.length = col.length / 10 ∨ g.length = col.length / 10 + 1) ∧
      (∀ i j (hi : i < groups.length) (hj : j < groups.length), i ≤ j →
        (groups.get ⟨j, hj⟩).length ≤ (groups.get ⟨i, hi⟩).length) ∧
      (∀ g ∈ groups, g ≠ []) ∧
      (∀ x ∈ groups.map mean, 0 ≤ x) := by
  have h10 : (0 : ℕ) < 10 := by norm_num
  have hflt : frame_index < s.cols.length := hf
  refine ⟨s.cols.get ⟨frame_index, hflt⟩, array_split (s.cols.get ⟨frame_index, hflt⟩) 10,
    pyColumn_natCast s frame_index hflt, get_frequency_bands_in_range s frame_index hflt,
    ?_, ?_, ?_, ?_, ?_, ?_⟩
  case _ =>
    rw [List.length_map, array_split, chunksBySizes_length, splitSizes_length _ _ h10]
  case _ =>
    exact chunksBySizes_join _ _ (splitSizes_sum _ _ h10)
  all_goals {
    set col := s.cols.get ⟨frame_index, hflt⟩ with hcoldef
    have hcolmem : col ∈ s.cols := List.get_mem _ _ hflt
    have hcollen : col.length = s.numBins := s.cols_len col hcolmem
    have hsum : (splitSizes col.length 10).sum = col.length := splitSizes_sum _ _ h10
    have hlengths : (array_split col 10).map List.length = splitSizes col.length 10 :=
      chunksBySizes_lengths _ _ (le_of_eq hsum)
    have hglen : (array_split col 10).length = 10 := by
      rw [array_split, chunksBySizes_length, splitSizes_length _ _ h10]
    have hdivpos : 1 ≤ col.length / 10 := by
      rw [hcollen]; exact (Nat.one_le_div_iff h10).mpr hb
    first
    | -- group sizes
      · intro g hg
        have hmem : g.length ∈ splitSizes col.length 10 := by
          rw [← hlengths]; exact List.mem_map_of_mem _ hg
        exact (splitSizes_mem _ _ _ hmem).imp id id
    | -- earlier groups at least as large
      · intro i j hi hj hij
        have hi2 : i < (splitSizes col.length 10).length := by
          rw [splitSizes_length _ _ h10]; omega
        have hj2 : j < (splitSizes col.length 10).length := by
          rw [splitSizes_length _ _ h10]; omega
        have key : ∀ (t : ℕ) (ht : t < (array_split col 10).length)
            (ht2 : t < (splitSizes col.length 10).length),
            ((array_split col 10).get ⟨t, ht⟩).length =
              (splitSizes col.length 10).get ⟨t, ht2⟩ := by
          intro t ht ht2
          have h1 : ((array_split col 10).map List.length)[t]? =
              (splitSizes col.length 10)[t]? := by rw [hlengths]
          rw [List.getElem?_map, List.getElem?_eq_getElem ht,
            List.getElem?_eq_getElem ht2] at h1
          simpa [List.get_eq_getElem] using h1
        rw [key i hi hi2, key j hj hj2, splitSizes_get, splitSizes_get]
        split_ifs <;> omega
    | -- no group is empty
      · intro g hg
        have hmem : g.length ∈ splitSizes col.length 10 := by
          rw [← hlengths]; exact List.mem_map_of_mem _ hg
        have := splitSizes_mem _ _ _ hmem
        have hpos : 0 < g.length := by omega
        exact List.ne_nil_of_length_pos hpos
    | -- every band mean is non-negative
      · intro x hx
        rcases List.mem_map.mp hx with ⟨g, hg, rfl⟩
        refine mean_nonneg g (fun y hy => ?_)
        have hycol : y ∈ col := by
          rw [← chunksBySizes_join (splitSizes col.length 10) col hsum]
          exact List.mem_flatten.mpr ⟨g, hg, hy⟩
        exact s.nonneg col hcolmem y hycol
  }

/-- Witness for C1 at the concrete spectrogram `exSpec`, frame index 0. -/
theorem C1_bands_partition_means_witness :
    0 < exSpec.frameCount ∧ 10 ≤ exSpec.numBins ∧
    (∃ (col : List ℚ) (groups : List (List ℚ)),
      pyColumn exSpec ((0 : ℕ) : ℤ) = some col ∧
      get_frequency_bands exSpec ((0 : ℕ) : ℤ) = some (groups.map mean) ∧
      (groups.map mean).length = 10 ∧
      groups.flatten = col ∧
      (∀ g ∈ groups, g.length = col.length / 10 ∨ g.length = col.length / 10 + 1) ∧
      (∀ i j (hi : i < groups.length) (hj : j < groups.length), i ≤ j →
        (groups.get ⟨j, hj⟩).length ≤ (groups.get ⟨i, hi⟩).length) ∧
      (∀ g ∈ groups, g ≠ []) ∧
      (∀ x ∈ groups.map mean, 0 ≤ x)) :=
  ⟨by decide, by decide, C1_bands_partition_means exSpec 0 (by decide) (by decide)⟩

/-- C2 counterexample: the claim says every `frame_index` outside
`[0, frame_count)` — including negative ones — yields the all-zero
10-element vector, but at the negative index `-1` the code selects the
last column via Python negative indexing and returns its band means,
which are not all zero. -/
theorem C2_counterexample :
    get_frequency_bands exSpec (-1) ≠ some (List.replicate 10 (0 : ℚ)) := by
  have h : get_frequency_bands exSpec (-1) =
      some [1, 2, 3, 4, 5, 6, 7, 8, 9, 10] := by
    norm_num [get_frequency_bands, pyColumn, exSpec, exCol, bandMeans,
      array_split, splitSizes, chunksBySizes, mean]
  rw [h]
  simp only [ne_eq, Option.some.injEq]
  decide

/-- C2 amended: `get_frequency_bands` returns the all-zero 10-element
vector exactly when `frame_index ≥ frame_count`; a negative `frame_index`
is instead treated by Python negative indexing (see C10). -/
theorem C2_amended_zeros_from_frameCount (s : Spectrogram) (frame_index : ℤ)
    (h : (s.frameCount : ℤ) ≤ frame_index) :
    get_frequency_bands s frame_index = some (List.replicate 10 0) := by
  unfold get_frequency_bands
  rw [if_pos (show (s.cols.length : ℤ) ≤ frame_index from h)]

/-- Witness for the amended C2 at `exSpec`, frame index 5 ≥ frame_count. -/
theorem C2_amended_witness :
    (exSpec.frameCount : ℤ) ≤ 5 ∧
    get_frequency_bands exSpec 5 = some (List.replicate 10 0) :=
  ⟨by decide, C2_amended_zeros_from_frameCount exSpec 5 (by decide)⟩

/-- C10: for `-frame_count ≤ frame_index < 0`, `get_frequency_bands`
returns the band means of column `frame_count + frame_index` (Python
negative indexing), and for every `frame_index < frame_count` the result
goes through column indexing — the zero-vector branch is taken only when
`frame_index ≥ frame_count`. -/
theorem C10_negative_indexing (s : Spectrogram) (frame_index : ℤ)
    (h1 : -(s.frameCount : ℤ) ≤ frame_index) (h2 : frame_index < 0) :
    (∃ col, s.cols[(frame_index + (s.frameCount : ℤ)).toNat]? = some col ∧
      get_frequency_bands s frame_index = some (bandMeans col)) ∧
    (∀ j : ℤ, j < (s.frameCount : ℤ) →
      get_frequency_bands s j = (pyColumn s j).map bandMeans) := by
  have h1c : -(s.cols.length : ℤ) ≤ frame_index := h1
  simp only [Spectrogram.frameCount]
  constructor
  · obtain ⟨hlt, hpy⟩ := pyColumn_neg s frame_index h1c h2
    refine ⟨s.cols.get ⟨(frame_index + (s.cols.length : ℤ)).toNat, hlt⟩, ?_, ?_⟩
    · rw [List.getElem?_eq_getElem hlt]
      simp [List.get_eq_getElem]
    · unfold get_frequency_bands
      rw [if_neg (by omega), hpy]
      rfl
  · intro j hj
    have hj2 : ¬ ((s.cols.length : ℤ) ≤ j) := not_le.mpr hj
    unfold get_frequency_bands
    rw [if_neg hj2]

theorem foldl_max_le_init (l : List ℚ) (a b : ℚ) (h : a ≤ b) :
    a ≤ l.foldl max b := by
  induction l generalizing b with
  | nil => exact h
  | cons x xs ih => exact ih (max b x) (le_trans h (le_max_left b x))

theorem le_foldl_max (l : List ℚ) (a x : ℚ) (hx : x ∈ l) :
    x ≤ l.foldl max a := by
  induction l generalizing a with
  | nil => cases hx
  | cons y ys ih =>
    rcases List.mem_cons.mp hx with rfl | hmem
    · exact foldl_max_le_init ys x (max a x) (le_max_right a x)
    · exact ih (max a y) hmem

theorem le_npMax_of_mem (l : List ℚ) (x : ℚ) (hx : x ∈ l) : x ≤ npMax l := by
  match l with
  | [] => cases hx
  | y :: ys =>
    rcases List.mem_cons.mp hx with rfl | hmem
    · exact foldl_max_le_init ys x x le_rfl
    · exact le_foldl_max ys y x hmem

theorem foldl_max_map_mul (c : ℚ) (hc : 0 ≤ c) (l : List ℚ) (a : ℚ) :
    (l.map (fun x => c * x)).foldl max (c * a) = c * l.foldl max a := by
  induction l generalizing a with
  | nil => rfl
  | cons x xs ih =>
    simp only [List.map_cons, List.foldl_cons]
    rw [← mul_max_of_nonneg a x hc]
    exact ih (max a x)

theorem npMax_map_mul (c : ℚ) (hc : 0 ≤ c) (l : List ℚ) :
    npMax (l.map (fun x => c * x)) = c * npMax l := by
  match l with
  | [] => simp [npMax]
  | y :: ys =>
    simp only [npMax, List.map_cons]
    exact foldl_max_map_mul c hc ys y

theorem npMax_eq_zero_all_zero (l : List ℚ) (hnn : ∀ x ∈ l, 0 ≤ x)
    (h : ¬ 0 < npMax l) : ∀ x ∈ l, x = 0 := by
  intro x hx
  exact le_antisymm (le_trans (le_npMax_of_mem l x hx) (not_lt.mp h)) (hnn x hx)

/-- C3: normalization (divide by the maximum when it is positive, leave
unchanged otherwise) is scale-invariant on non-negative 10-element band
vectors: scaling by a positive `c` does not change the result, and the
all-zero vector normalizes to itself with no division by zero. -/
theorem C3_normalization_scale_invariant (b : List ℚ)
    (hnn : ∀ x ∈ b, 0 ≤ x) (_hlen : b.length = 10) (c : ℚ) (hc : 0 < c) :
    normalizeBands (b.map (fun x => c * x)) = normalizeBands b ∧
    normalizeBands (List.replicate 10 (0 : ℚ)) = List.replicate 10 0 := by
  constructor
  · by_cases h : 0 < npMax b
    · have hmax : npMax (b.map (fun x => c * x)) = c * npMax b :=
        npMax_map_mul c (le_of_lt hc) b
      have hpos : 0 < npMax (b.map (fun x => c * x)) := by
        rw [hmax]; exact mul_pos hc h
      rw [normalizeBands, if_pos hpos, normalizeBands, if_pos h]
      rw [List.map_map]
      refine List.map_congr_left (fun x hx => ?_)
      simp only [Function.comp_apply, hmax]
      exact mul_div_mul_left x (npMax b) (ne_of_gt hc)
    · have hzero : ∀ x ∈ b, x = 0 := npMax_eq_zero_all_zero b hnn h
      have hid : b.map (fun x => c * x) = b := by
        have hmap : b.map (fun x => c * x) = b.map id := by
          refine List.map_congr_left (fun x hx => ?_)
          rw [hzero x hx, mul_zero]
          rfl
        rw [hmap, List.map_id]
      rw [hid]
  · have hmax : npMax (List.replicate 10 (0 : ℚ)) = 0 := by
      norm_num [npMax, List.replicate]
    rw [normalizeBands, if_neg (by rw [hmax]; exact lt_irrefl 0)]

/-- Witness for C3 at a concrete band vector and scale factor 2. -/
theorem C3_normalization_scale_invariant_witness :
    (∀ x ∈ exCol, (0 : ℚ) ≤ x) ∧ exCol.length = 10 ∧ (0 : ℚ) < 2 ∧
    (normalizeBands (exCol.map (fun x => 2 * x)) = normalizeBands exCol ∧
     normalizeBands (List.replicate 10 (0 : ℚ)) = List.replicate 10 0) :=
  ⟨by decide, by decide, by norm_num,
    C3_normalization_scale_invariant exCol (by decide) (by decide) 2 (by norm_num)⟩

/-- Witness for C10 at `exSpec`, frame index -1. -/
theorem C10_negative_indexing_witness :
    -(exSpec.frameCount : ℤ) ≤ -1 ∧ (-1 : ℤ) < 0 ∧
    ((∃ col, exSpec.cols[((-1 : ℤ) + (exSpec.frameCount : ℤ)).toNat]? = some col ∧
      get_frequency_bands exSpec (-1) = some (bandMeans col)) ∧
    (∀ j : ℤ, j < (exSpec.frameCount : ℤ) →
      get_frequency_bands exSpec j = (pyColumn exSpec j).map bandMeans)) :=
  ⟨by decide, by decide, C10_negative_indexing exSpec (-1) (by decide) (by decide)⟩

theorem chunksBySizes_subset (sizes : List ℕ) (xs : List ℚ) (g : List ℚ)
    (hg : g ∈ chunksBySizes sizes xs) (y : ℚ) (hy : y ∈ g) : y ∈ xs := by
  induction sizes generalizing xs with
  | nil => cases hg
  | cons s ss ih =>
    rcases List.mem_cons.mp hg with rfl | hmem
    · exact List.mem_of_mem_take hy
    · exact List.mem_of_mem_drop (ih (xs.drop s) hmem)

theorem bandMeans_nonneg (col : List ℚ) (h : ∀ x ∈ col, 0 ≤ x) :
    ∀ x ∈ bandMeans col, 0 ≤ x := by
  intro x hx
  rcases List.mem_map.mp hx with ⟨g, hg, rfl⟩
  exact mean_nonneg g (fun y hy => h y (chunksBySizes_subset _ col g hg y hy))

theorem pyColumn_mem (s : Spectrogram) (i : ℤ) (col : List ℚ)
    (h : pyColumn s i = some col) : col ∈ s.cols := by
  simp only [pyColumn] at h
  split_ifs at h <;>
    · rcases List.getElem?_eq_some_iff.mp h with ⟨hlt, hget⟩
      rw [← hget]
      exact List.getElem_mem hlt

theorem get_frequency_bands_nonneg (s : Spectrogram) (i : ℤ) (b : List ℚ)
    (h : get_frequency_bands s i = some b) : ∀ x ∈ b, 0 ≤ x := by
  unfold get_frequency_bands at h
  split_ifs at h
  · intro x hx
    rw [Option.some.injEq] at h
    rw [← h] at hx
    rw [List.eq_of_mem_replicate hx]
  · rcases Option.map_eq_some'.mp h with ⟨col, hcol, rfl⟩
    exact bandMeans_nonneg col (s.nonneg col (pyColumn_mem s i col hcol))

theorem get_frequency_bands_length (s : Spectrogram) (i : ℤ) (b : List ℚ)
    (h : get_frequency_bands s i = some b) : b.length = 10 := by
  unfold get_frequency_bands at h
  split_ifs at h
  · rw [Option.some.injEq] at h
    rw [← h, List.length_replicate]
  · rcases Option.map_eq_some'.mp h with ⟨col, _, rfl⟩
    rw [bandMeans, List.length_map, array_split, chunksBySizes_length,
      splitSizes_length _ _ (by norm_num)]

theorem normalizeBands_length (b : List ℚ) :
    (normalizeBands b).length = b.length := by
  unfold normalizeBands
  split_ifs <;> simp

theorem normalizeBands_mem_unit (b : List ℚ) (hnn : ∀ x ∈ b, 0 ≤ x) :
    ∀ n ∈ normalizeBands b, 0 ≤ n ∧ n ≤ 1 := by
  intro n hn
  unfold normalizeBands at hn
  split_ifs at hn with h
  · rcases List.mem_map.mp hn with ⟨x, hx, rfl⟩
    constructor
    · exact div_nonneg (hnn x hx) (le_of_lt h)
    · exact (div_le_one h).mpr (le_npMax_of_mem b x hx)
  · have hx0 : n = 0 := npMax_eq_zero_all_zero b hnn h n hn
    rw [hx0]
    norm_num

theorem normalizeBands_nonneg_from_bands (s : Spectrogram) (i : ℤ) (b : List ℚ)
    (h : get_frequency_bands s i = some b) :
    ∀ n ∈ normalizeBands b, 0 ≤ n ∧ n ≤ 1 :=
  normalizeBands_mem_unit b (get_frequency_bands_nonneg s i b h)

/-- Every circle of a rendered frame carries the color channels
`int(255*n)`, `int(100+155*n)`, `int(200*(1-n))` for some normalized
magnitude `n ∈ [0, 1]` of that frame, along with the radius and vertical
position determined by the same `n`. -/
theorem draw_frame_circle_decomp (v : MusicVisualizer) (i : ℤ) (c : Circle)
    (hc : c ∈ ((draw_frame v i).map Frame.circles).getD []) :
    ∃ n : ℚ, 0 ≤ n ∧ n ≤ 1 ∧
      c.colorR = pyIntQ (255 * n) ∧
      c.colorG = pyIntQ (100 + 155 * n) ∧
      c.colorB = pyIntQ (200 * (1 - n)) ∧
      c.radius = 20 + n * 30 ∧
      c.yPos = (v.height : ℝ) / 2 + (n : ℝ) * 100 * phase i := by
  cases hdf : draw_frame v i with
  | none => rw [hdf] at hc; cases hc
  | some fr =>
    rw [hdf] at hc
    simp only [Option.map_some', Option.getD_some] at hc
    unfold draw_frame at hdf
    rcases Option.map_eq_some'.mp hdf with ⟨bands0, hb0, hfr⟩
    rw [← hfr] at hc
    simp only at hc
    rcases List.mem_map.mp hc with ⟨idx, hidx, hceq⟩
    have hidxlt : idx < (normalizeBands bands0).length := List.mem_range.mp hidx
    set n : ℚ := (normalizeBands bands0).getD idx 0 with hn
    have hmem : n ∈ normalizeBands bands0 := by
      rw [hn, List.getD_eq_getElem _ _ hidxlt]
      exact List.getElem_mem hidxlt
    obtain ⟨h0, h1⟩ := normalizeBands_nonneg_from_bands v.stft i bands0 hb0 n hmem
    refine ⟨n, h0, h1, ?_, ?_, ?_, ?_, ?_⟩ <;> rw [← hceq]

theorem pyIntQ_eq_floor (q : ℚ) (h : 0 ≤ q) : pyIntQ q = ⌊q⌋ := by
  rw [pyIntQ, if_pos h]

theorem pyIntQ_bounds (q : ℚ) (m : ℤ) (h0 : 0 ≤ q) (hm : q ≤ (m : ℚ)) :
    0 ≤ pyIntQ q ∧ pyIntQ q ≤ m := by
  rw [pyIntQ_eq_floor q h0]
  constructor
  · exact Int.le_floor.mpr (by exact_mod_cast h0)
  · calc ⌊q⌋ ≤ ⌊(m : ℚ)⌋ := Int.floor_le_floor hm
      _ = m := Int.floor_intCast m

/-- C4 amended: for every circle rendered by `draw_frame`, the color
channels are the truncations (floor, since the operands are
non-negative) of `255*n`, `100+155*n`, `200*(1-n)` for that circle's
normalized magnitude `n ∈ [0,1]` — Python `int()` truncates; it does not
round to nearest. -/
theorem C4_amended_color_truncation (v : MusicVisualizer) (i : ℤ)
    (_hb : 10 ≤ v.stft.numBins) :
    ∀ c ∈ ((draw_frame v i).map Frame.circles).getD [],
      ∃ n : ℚ, 0 ≤ n ∧ n ≤ 1 ∧
        c.colorR = ⌊255 * n⌋ ∧ c.colorG = ⌊100 + 155 * n⌋ ∧
        c.colorB = ⌊200 * (1 - n)⌋ := by
  intro c hc
  obtain ⟨n, h0, h1, hR, hG, hB, _, _⟩ := draw_frame_circle_decomp v i c hc
  refine ⟨n, h0, h1, ?_, ?_, ?_⟩
  · rw [hR, pyIntQ_eq_floor _ (by positivity)]
  · rw [hG, pyIntQ_eq_floor _ (by positivity)]
  · rw [hB, pyIntQ_eq_floor _ (by nlinarith)]

/-- C5: every color channel of every circle rendered by `draw_frame`
lies in `[0, 255]`, because each normalized magnitude lies in `[0, 1]`
after the division-by-maximum step. -/
theorem C5_color_channel_bounds (v : MusicVisualizer) (i : ℤ)
    (_hb : 10 ≤ v.stft.numBins) :
    ∀ c ∈ ((draw_frame v i).map Frame.circles).getD [],
      (0 ≤ c.colorR ∧ c.colorR ≤ 255) ∧
      (0 ≤ c.colorG ∧ c.colorG ≤ 255) ∧
      (0 ≤ c.colorB ∧ c.colorB ≤ 255) := by
  intro c hc
  obtain ⟨n, h0, h1, hR, hG, hB, _, _⟩ := draw_frame_circle_decomp v i c hc
  refine ⟨?_, ?_, ?_⟩
  · rw [hR]
    exact pyIntQ_bounds _ 255 (by positivity) (by push_cast; nlinarith)
  · rw [hG]
    exact pyIntQ_bounds _ 255 (by positivity) (by push_cast; nlinarith)
  · rw [hB]
    exact pyIntQ_bounds _ 255 (by nlinarith) (by push_cast; nlinarith)

theorem range_ten : List.range 10 = [0, 1, 2, 3, 4, 5, 6, 7, 8, 9] := by decide

/-- C4 counterexample: at `exVis4`, frame 0, band 1 has normalized
magnitude `1/3`; the code computes the G channel as
`int(100 + 155/3) = 151` (truncation), while the claim's
`round(100 + 155/3) = 152`. The color channels are truncated, not
rounded to nearest. -/
theorem C4_counterexample :
    ((draw_frame exVis4 0).map (fun fr => fr.circles.map Circle.colorG)).getD [] =
      [255, 151, 255, 255, 255, 255, 255, 255, 255, 255] ∧
    ((get_frequency_bands exVis4.stft 0).map (fun b =>
        (normalizeBands b).map (fun n => round ((100 : ℚ) + 155 * n)))).getD [] =
      [255, 152, 255, 255, 255, 255, 255, 255, 255, 255] ∧
    ((draw_frame exVis4 0).map (fun fr => fr.circles.map Circle.colorG)).getD [] ≠
    ((get_frequency_bands exVis4.stft 0).map (fun b =>
        (normalizeBands b).map (fun n => round ((100 : ℚ) + 155 * n)))).getD [] := by
  have hbands : get_frequency_bands exVis4.stft 0 =
      some [3, 1, 3, 3, 3, 3, 3, 3, 3, 3] := by
    norm_num [get_frequency_bands, pyColumn, exVis4, initLoaded, exSpec4, exCol4,
      bandMeans, array_split, splitSizes, chunksBySizes, mean]
  have hnorm : normalizeBands [3, 1, 3, 3, 3, 3, 3, 3, 3, 3] =
      [1, 1/3, 1, 1, 1, 1, 1, 1, 1, 1] := by
    norm_num [normalizeBands, npMax]
  refine ⟨?_, ?_, ?_⟩
  · rw [draw_frame, hbands]
    simp only [Option.map_some', Option.getD_some, hnorm]
    norm_num [range_ten, pyIntQ]
  · rw [hbands]
    simp only [Option.map_some', Option.getD_some, hnorm]
    norm_num [round_eq]
  · rw [draw_frame, hbands]
    simp only [Option.map_some', Option.getD_some, hnorm]
    norm_num [range_ten, pyIntQ, round_eq]

/-- Witness for the amended C4 at `exVis4`, frame 0. -/
theorem C4_amended_witness :
    10 ≤ exVis4.stft.numBins ∧
    (∀ c ∈ ((draw_frame exVis4 0).map Frame.circles).getD [],
      ∃ n : ℚ, 0 ≤ n ∧ n ≤ 1 ∧
        c.colorR = ⌊255 * n⌋ ∧ c.colorG = ⌊100 + 155 * n⌋ ∧
        c.colorB = ⌊200 * (1 - n)⌋) :=
  ⟨by decide, C4_amended_color_truncation exVis4 0 (by decide)⟩

/-- Witness for C5 at `exVis4`, frame 0. -/
theorem C5_color_channel_bounds_witness :
    10 ≤ exVis4.stft.numBins ∧
    (∀ c ∈ ((draw_frame exVis4 0).map Frame.circles).getD [],
      (0 ≤ c.colorR ∧ c.colorR ≤ 255) ∧
      (0 ≤ c.colorG ∧ c.colorG ≤ 255) ∧
      (0 ≤ c.colorB ∧ c.colorB ≤ 255)) :=
  ⟨by decide, C5_color_channel_bounds exVis4 0 (by decide)⟩

theorem normalizeBands_zeros :
    normalizeBands (List.replicate 10 (0 : ℚ)) = List.replicate 10 0 := by
  norm_num [normalizeBands, npMax, List.replicate]

theorem getD_replicate_zero (idx : ℕ) :
    (List.replicate 10 (0 : ℚ)).getD idx 0 = 0 := by
  rcases Nat.lt_or_ge idx 10 with h | h
  · rw [List.getD_eq_getElem _ _ (by simpa using h)]
    rw [List.getElem_replicate]
  · rw [List.getD_eq_default _ _ (by simpa using h)]

/-- C6: whenever the normalized band vector of a frame is all zeros
(silence, or an out-of-range frame index), `draw_frame` draws exactly 10
circles, each with radius 20 (both as computed and as passed to pygame),
color `(0, 100, 200)`, and vertical position `y = height / 2` — the
oscillation amplitude vanishes. -/
theorem C6_silent_frame (v : MusicVisualizer) (i : ℤ)
    (hz : ∃ b, get_frequency_bands v.stft i = some b ∧
      normalizeBands b = List.replicate 10 0) :
    ∃ fr, draw_frame v i = some fr ∧ fr.circles.length = 10 ∧
      ∀ c ∈ fr.circles,
        c.radius = 20 ∧ c.drawnRadius = 20 ∧
        c.colorR = 0 ∧ c.colorG = 100 ∧ c.colorB = 200 ∧
        c.yPos = (v.height : ℝ) / 2 ∧
        c.drawnY = pyIntR ((v.height : ℝ) / 2) := by
  obtain ⟨b, hbeq, hnorm⟩ := hz
  rw [draw_frame, hbeq]
  simp only [Option.map_some']
  refine ⟨_, rfl, ?_, ?_⟩
  · simp only [List.length_map, List.length_range, hnorm, List.length_replicate]
  · intro c hc
    rcases List.mem_map.mp hc with ⟨idx, _, hceq⟩
    have hmag : (normalizeBands b).getD idx 0 = 0 := by
      rw [hnorm]; exact getD_replicate_zero idx
    subst hceq
    simp only [hmag]
    refine ⟨by norm_num, by norm_num [pyIntQ], by norm_num [pyIntQ],
      by norm_num [pyIntQ], by norm_num [pyIntQ], by push_cast; ring, ?_⟩
    congr 1
    push_cast
    ring

/-- Witness for C6: `exSpec` has 1 frame, so frame index 7 is out of
range and yields the all-zero band vector. -/
theorem C6_silent_frame_witness :
    (∃ b, get_frequency_bands (initLoaded 800 600 exSpec).stft 7 = some b ∧
      normalizeBands b = List.replicate 10 0) ∧
    (∃ fr, draw_frame (initLoaded 800 600 exSpec) 7 = some fr ∧
      fr.circles.length = 10 ∧
      ∀ c ∈ fr.circles,
        c.radius = 20 ∧ c.drawnRadius = 20 ∧
        c.colorR = 0 ∧ c.colorG = 100 ∧ c.colorB = 200 ∧
        c.yPos = (((initLoaded 800 600 exSpec).height : ℝ)) / 2 ∧
        c.drawnY = pyIntR (((initLoaded 800 600 exSpec).height : ℝ) / 2)) := by
  have hz : ∃ b, get_frequency_bands (initLoaded 800 600 exSpec).stft 7 = some b ∧
      normalizeBands b = List.replicate 10 0 := by
    refine ⟨List.replicate 10 0, ?_, normalizeBands_zeros⟩
    norm_num [get_frequency_bands, initLoaded, exSpec]
  exact ⟨hz, C6_silent_frame (initLoaded 800 600 exSpec) 7 hz⟩

/-- C7 counterexample: the claim asserts the phase term at frame `30*k`
equals the phase at frame 0 for every integer `k`; at `k = 1` the phase
is `sin 3 > 0 = sin 0`. -/
theorem C7_counterexample : phase (30 * 1) ≠ phase 0 := by
  have h0 : phase 0 = 0 := by
    simp [phase]
  have h3 : phase (30 * 1) = Real.sin 3 := by
    simp only [phase]
    norm_num
  have hpos : (0 : ℝ) < Real.sin 3 :=
    Real.sin_pos_of_pos_of_lt_pi (by norm_num) (by linarith [Real.pi_gt_three])
  rw [h0, h3]
  exact ne_of_gt hpos

/-- C7 amended: the phase term at frame `30*k` is `sin(3*k)`, and the
phase at frame 0 is `sin 0 = 0`; frames `30*k` do not share frame 0's
phase in general (the oscillation period is `20*pi ≈ 62.8` frames, not
30), as the counterexample at `k = 1` shows. -/
theorem C7_amended_phase (k : ℤ) :
    phase (30 * k) = Real.sin (3 * (k : ℝ)) ∧ phase 0 = 0 := by
  constructor
  · simp only [phase]
    congr 1
    push_cast
    ring
  · simp [phase]

/-- C8: `draw_frame` is deterministic — for any two visualizer states
reachable through `__init__` + `load_audio` that agree on the
spectrogram and the canvas dimensions, the rendered frames are identical
(the result depends only on the spectrogram, the frame index and the
canvas dimensions; the remaining state, the two color constants, is
fixed by `__init__`). -/
theorem C8_draw_frame_deterministic (v1 v2 : MusicVisualizer)
    (h1 : Reachable v1) (h2 : Reachable v2)
    (hs : v1.stft = v2.stft) (hw : v1.width = v2.width)
    (hh : v1.height = v2.height) (i : ℤ) :
    draw_frame v1 i = draw_frame v2 i := by
  obtain ⟨w1, t1, s1, rfl⟩ := h1
  obtain ⟨w2, t2, s2, rfl⟩ := h2
  have hs2 : s1 = s2 := hs
  have hw2 : w1 = w2 := hw
  have hh2 : t1 = t2 := hh
  rw [hs2, hw2, hh2]

/-- Witness for C8 at two identically-built concrete states. -/
theorem C8_draw_frame_deterministic_witness :
    Reachable (initLoaded 800 600 exSpec) ∧
    (initLoaded 800 600 exSpec).stft = (initLoaded 800 600 exSpec).stft ∧
    (initLoaded 800 600 exSpec).width = (initLoaded 800 600 exSpec).width ∧
    (initLoaded 800 600 exSpec).height = (initLoaded 800 600 exSpec).height ∧
    draw_frame (initLoaded 800 600 exSpec) 0 =
      draw_frame (initLoaded 800 600 exSpec) 0 :=
  ⟨⟨800, 600, exSpec, rfl⟩, rfl, rfl, rfl,
    C8_draw_frame_deterministic (initLoaded 800 600 exSpec)
      (initLoaded 800 600 exSpec) ⟨800, 600, exSpec, rfl⟩
      ⟨800, 600, exSpec, rfl⟩ rfl rfl rfl 0⟩

/-- C9 evaluation: when the external muxer tool merely returns a failure
status (the common failure mode — `os.system` does not raise), the code
still executes `os.remove(temp_video)`, deleting the only copy of the
silent video: nothing remains at the output path or the temp path, so
the already-encoded artifact is lost, contradicting the claim (and the
code's own comment, which says the original video is restored on
failure). The exception mode, by contrast, does restore it. -/
theorem C9_mux_tool_failure_loses_video :
    (muxStep "silent-video" MuxOutcome.toolFailure).atOutput = none ∧
    (muxStep "silent-video" MuxOutcome.toolFailure).atTemp = none ∧
    (muxStep "silent-video" MuxOutcome.exceptionDuringMerge).atOutput =
      some "silent-video" :=
  ⟨rfl, rfl, rfl⟩

end MusicViz

namespace MusicViz

/-- Witness for the amended C7 at `k = 1`. -/
theorem C7_amended_phase_witness :
    phase (30 * 1) = Real.sin (3 * ((1 : ℤ) : ℝ)) ∧ phase 0 = 0 :=
  C7_amended_phase 1

end MusicViz
